import Mathlib

/-!
Verification of the recurrence/compliance core of the Qualgen work-order
repository.  The definitions below are a shallow embedding of the pure
date/recurrence/ledger logic of `src/backend/src/index.ts` (and, where noted,
of the calendar view in `src/frontend/src/App.vue`).  JavaScript `Date`
objects constructed at local midnight are embedded as calendar-field triples;
`Date` comparison (epoch order) coincides with lexicographic order on the
(year, month, day) fields for such dates.  All date strings handled by the
code are ASCII, where JavaScript string comparison coincides with the
character-wise order used here.
-/

set_option maxRecDepth 4000

namespace Qualgen

/-- A JS `Date` at local midnight, kept as its calendar fields:
`y` = getFullYear, `m` = 1-based month, `d` = day of month. -/
structure YMD where
  y : Nat
  m : Nat
  d : Nat
deriving DecidableEq, Repr

/-- Gregorian leap-year rule (what JS `Date` month arithmetic follows). -/
def isLeap (y : Nat) : Bool :=
  (y % 4 == 0 && y % 100 != 0) || y % 400 == 0

/-- Number of days of month `m` in year `y`; in the source this is
`new Date(year, month + 1, 0).getDate()`. -/
def daysInMonth (y m : Nat) : Nat :=
  if m = 2 then (if isLeap y then 29 else 28)
  else if m = 4 ∨ m = 6 ∨ m = 9 ∨ m = 11 then 30
  else 31

/-- One-day increment with month/year rollover: the effect of
`setDate(getDate() + 1)` on a valid date. -/
def nextDay (x : YMD) : YMD :=
  if x.d < daysInMonth x.y x.m then ⟨x.y, x.m, x.d + 1⟩
  else if x.m < 12 then ⟨x.y, x.m + 1, 1⟩
  else ⟨x.y + 1, 1, 1⟩

/-- `addDays` of index.ts (137-141): `next.setDate(next.getDate() + days)`.
For a non-negative count this is `days` successive day increments. -/
def addDays (x : YMD) : Nat → YMD
  | 0 => x
  | n + 1 => addDays (nextDay x) n

/-- `addMonths` of index.ts (143-151): set the day to 1, add `months` to the
0-based month (year rollover via division), then clamp the day of month to the
target month's length. -/
def addMonths (x : YMD) (n : Nat) : YMD :=
  let t := (x.m - 1) + n
  let y := x.y + t / 12
  let m := t % 12 + 1
  ⟨y, m, min x.d (daysInMonth y m)⟩

/-- JS `Date` `<` (epoch order) on local-midnight dates: lexicographic on
(year, month, day). -/
def ymdLt (a b : YMD) : Bool :=
  decide (a.y < b.y ∨ (a.y = b.y ∧ (a.m < b.m ∨ (a.m = b.m ∧ a.d < b.d))))

/-- JS `Date` `<=` on local-midnight dates. -/
def ymdLe (a b : YMD) : Bool :=
  decide (a.y < b.y ∨ (a.y = b.y ∧ (a.m < b.m ∨ (a.m = b.m ∧ a.d ≤ b.d))))

/-- Lexicographic comparison of character lists by code point: the order JS
`<` uses on (ASCII) strings. -/
def charListLt : List Char → List Char → Bool
  | [], [] => false
  | [], _ :: _ => true
  | _ :: _, [] => false
  | a :: as, b :: bs => a.toNat < b.toNat || (a.toNat = b.toNat && charListLt as bs)

/-- JS string `a < b`. -/
def strLtb (a b : String) : Bool := charListLt a.toList b.toList

/-- JS string `a <= b` (total order, so `a <= b` iff not `b < a`). -/
def strLeb (a b : String) : Bool := !(strLtb b a)

/-- A calendar-field triple that denotes an actual calendar date. -/
def validYMD (x : YMD) : Prop :=
  1 ≤ x.m ∧ x.m ≤ 12 ∧ 1 ≤ x.d ∧ x.d ≤ daysInMonth x.y x.m

instance (x : YMD) : Decidable (validYMD x) := by
  unfold validYMD; infer_instance

/-- Two-digit zero padding, `String(n).padStart(2, '0')` for `n < 100`. -/
def pad2 (n : Nat) : String :=
  if n < 10 then "0" ++ toString n else toString n

/-- `toIsoDate` of index.ts (128-133): `` `${year}-${month}-${day}` `` with
zero-padded month and day. -/
def toIsoDate (x : YMD) : String :=
  toString x.y ++ "-" ++ pad2 x.m ++ "-" ++ pad2 x.d

def digitVal (c : Char) : Nat := c.toNat - '0'.toNat

/-- `parseIsoDate` of index.ts (121-126): the string must match
`^\d{4}-\d{2}-\d{2}$` and `new Date(value + "T00:00:00")` must be a valid
date, i.e. the month is 01-12 and the day 01-(days in that month). -/
def parseIsoDate (s : String) : Option YMD :=
  match s.toList with
  | [y1, y2, y3, y4, h1, m1, m2, h2, d1, d2] =>
    if ([y1, y2, y3, y4, m1, m2, d1, d2].all Char.isDigit) ∧ h1 = '-' ∧ h2 = '-' then
      let y := ((digitVal y1 * 10 + digitVal y2) * 10 + digitVal y3) * 10 + digitVal y4
      let m := digitVal m1 * 10 + digitVal m2
      let d := digitVal d1 * 10 + digitVal d2
      if 1 ≤ m ∧ m ≤ 12 ∧ 1 ≤ d ∧ d ≤ daysInMonth y m then some ⟨y, m, d⟩ else none
    else none
  | _ => none

/-- The closed recurrence enumeration, the eight strings of
`recurrenceValues` in index.ts (46-55). -/
inductive Recurrence
  | weekly
  | biWeekly
  | monthly
  | biMonthly
  | quarterly
  | every6Months
  | yearly
  | biYearly
deriving DecidableEq, Repr

/-- Membership test of a string in `recurrenceValues`, tagged. -/
def recurrenceOfString (s : String) : Option Recurrence :=
  if s = "weekly" then some .weekly
  else if s = "bi-weekly" then some .biWeekly
  else if s = "monthly" then some .monthly
  else if s = "bi-monthly" then some .biMonthly
  else if s = "quarterly" then some .quarterly
  else if s = "every-6-months" then some .every6Months
  else if s = "yearly" then some .yearly
  else if s = "bi-yearly" then some .biYearly
  else none

/-- `asRecurrence` of index.ts (153-158): falsy (`null`/`""`) yields null,
otherwise membership in `recurrenceValues`. -/
def asRecurrence : Option String → Option Recurrence
  | none => none
  | some s => if s = "" then none else recurrenceOfString s

/-- `nextRecurringDate` of index.ts (160-169); the final `addMonths 24` is
the fall-through branch, reachable only for `bi-yearly`. -/
def nextRecurringDate (date : YMD) (r : Recurrence) : YMD :=
  match r with
  | .weekly => addDays date 7
  | .biWeekly => addDays date 14
  | .monthly => addMonths date 1
  | .biMonthly => addMonths date 2
  | .quarterly => addMonths date 3
  | .every6Months => addMonths date 6
  | .yearly => addMonths date 12
  | .biYearly => addMonths date 24

/-- Collapse every run of consecutive hyphens to a single hyphen
(the source's second regex replace, hyphen-run to single hyphen). -/
def collapseHyphens : List Char → List Char
  | [] => []
  | [c] => [c]
  | a :: b :: rest =>
    if a = '-' ∧ b = '-' then collapseHyphens (b :: rest)
    else a :: collapseHyphens (b :: rest)

/-- Normalization step of `asFlexibleRecurrence` (index.ts 331-335):
lowercase, trim, turn runs of whitespace/underscores into single hyphens,
collapse repeated hyphens.  (Mapping every `[_\s]` character to `-` and then
collapsing hyphen runs produces the same string as the two regex replaces.) -/
def trimChars (l : List Char) : List Char :=
  ((l.dropWhile Char.isWhitespace).reverse.dropWhile Char.isWhitespace).reverse

def normalizeFreq (s : String) : String :=
  let lowered := s.toList.map Char.toLower
  let trimmed := trimChars lowered
  let hyphened := trimmed.map (fun c => if c = '_' ∨ c.isWhitespace then '-' else c)
  String.mk (collapseHyphens hyphened)

/-- The alias table of `asFlexibleRecurrence` (index.ts 340-365). -/
def flexAliases : List (String × Recurrence) :=
  [("weekly", .weekly), ("every-week", .weekly),
   ("biweekly", .biWeekly), ("bi-weekly", .biWeekly), ("every-2-weeks", .biWeekly),
   ("monthly", .monthly), ("every-month", .monthly),
   ("bimonthly", .biMonthly), ("bi-monthly", .biMonthly), ("every-2-months", .biMonthly),
   ("quarterly", .quarterly), ("every-3-months", .quarterly),
   ("every-6-months", .every6Months), ("6-months", .every6Months),
   ("semiannual", .every6Months), ("semi-annual", .every6Months),
   ("yearly", .yearly), ("annual", .yearly), ("annually", .yearly), ("every-year", .yearly),
   ("bi-yearly", .biYearly), ("biyearly", .biYearly), ("biennial", .biYearly),
   ("every-2-years", .biYearly)]

/-- `asFlexibleRecurrence` of index.ts (329-368). -/
def asFlexibleRecurrence : Option String → Option Recurrence
  | none => none
  | some s =>
    if s = "" then none
    else
      let normalized := normalizeFreq s
      match asRecurrence (some normalized) with
      | some r => some r
      | none => flexAliases.lookup normalized

/-- JS nullish coalescing `a ?? b` on nullable strings (keeps `""`). -/
def orNullish (a b : Option String) : Option String :=
  match a with
  | none => b
  | some s => some s

/-- The fields of a `PreventativeMaintenance` record that the recurrence core
reads or writes. -/
structure PmEntity where
  id : Nat
  locationId : Nat
  assetId : Option Nat
  recurrence : Option String
  frequency : Option String
  scheduleAnchor : Option String
  nextDue : Option String
  lastPm : Option String
deriving DecidableEq, Repr

/-- The fields of an `Asset` record that the calibration core reads or
writes. -/
structure AssetEntity where
  id : Nat
  locationId : Nat
  calDue : Option String
  calFreq : Option String
  lastCalibration : Option String
deriving DecidableEq, Repr

/-- Fast-forward loop of the generators (index.ts 315-318, also App.vue
634-638): `while (occurrence < startDate && safety < 500)` step and count.
The fuel argument carries `500 - safety`, so the loop is entered with fuel
500 and the returned counter is the number of steps taken. -/
def fastForward (r : Recurrence) (startDate : YMD) : Nat → YMD → Nat → YMD × Nat
  | 0, occ, safety => (occ, safety)
  | fuel + 1, occ, safety =>
    if ymdLt occ startDate then
      fastForward r startDate fuel (nextRecurringDate occ r) (safety + 1)
    else (occ, safety)

/-- Collection loop of the generators (index.ts 320-324, also App.vue
640-652): `while (occurrence <= endDate && safety < cap)` push the ISO date
then step.  The fuel argument carries `cap - safety`. -/
def collectDueDates (r : Recurrence) (endDate : YMD) : Nat → YMD → List String
  | 0, _ => []
  | fuel + 1, occ =>
    if ymdLe occ endDate then
      toIsoDate occ :: collectDueDates r endDate fuel (nextRecurringDate occ r)
    else []

/-- Both generator loops in sequence from a parsed anchor, with collection
cap `cap` (700 in the backend generators, 600 in the calendar view). -/
def generateFromAnchor (r : Recurrence) (anchor startDate endDate : YMD) (cap : Nat) :
    List String :=
  collectDueDates r endDate (cap - (fastForward r startDate 500 anchor 0).2)
    (fastForward r startDate 500 anchor 0).1

/-- `buildDueDatesInRange` of index.ts (299-327): recurrence from
`pm.recurrence ?? pm.frequency` through `asRecurrence`, anchor from
`pm.scheduleAnchor ?? pm.nextDue`; empty list when either is falsy or the
anchor fails to parse; otherwise the two loops with caps 500/700. -/
def buildDueDatesInRange (pm : PmEntity) (startDate endDate : YMD) : List String :=
  match asRecurrence (orNullish pm.recurrence pm.frequency) with
  | none => []
  | some r =>
    match orNullish pm.scheduleAnchor pm.nextDue with
    | none => []
    | some anchorRaw =>
      if anchorRaw = "" then []
      else
        match parseIsoDate anchorRaw with
        | none => []
        | some anchor => generateFromAnchor r anchor startDate endDate 700

/-- `buildCalibrationDueDatesInRange` of index.ts (370-405): anchor from
`asset.calDue`, recurrence from `asFlexibleRecurrence(asset.calFreq)`; with
no recurrence the anchor alone is returned when it lies inside the window;
otherwise the two loops with caps 500/700. -/
def buildCalibrationDueDatesInRange (asset : AssetEntity) (startDate endDate : YMD) :
    List String :=
  match asset.calDue with
  | none => []
  | some anchorRaw =>
    if anchorRaw = "" then []
    else
      match parseIsoDate anchorRaw with
      | none => []
      | some anchor =>
        match asFlexibleRecurrence asset.calFreq with
        | none =>
          if ymdLe startDate anchor && ymdLe anchor endDate then [toIsoDate anchor] else []
        | some r => generateFromAnchor r anchor startDate endDate 700

/-- The PM branch of `buildLocationEventsBetween` in App.vue (627-652),
projected to the `date` field of the pushed events: identical to the
backend generator except that the collection loop is capped at
`safety < 600` instead of `safety < 700`. -/
def frontendPmEventDates (r : Recurrence) (firstDate startBoundary endBoundary : YMD) :
    List String :=
  generateFromAnchor r firstDate startBoundary endBoundary 600

/-- JS truthiness of a nullable string (`Boolean(value)`). -/
def jsTruthy : Option String → Bool
  | none => false
  | some s => !(s == "")

/-- The per-row status expression of the compliance report, identical in
`pmRows` (index.ts 1575-1584) and `calibrationRows` (index.ts 1612-1621):
`completed = Boolean(completedAt)`, `late = completed ? completedAt > dueDate
: false`, then completed-late / completed-on-time / missed / scheduled. -/
def rowStatus (completedAt : Option String) (dueDate today : String) : String :=
  let completed := jsTruthy completedAt
  let late := completed && strLtb dueDate (completedAt.getD "")
  if completed then
    if late then "completed-late" else "completed-on-time"
  else if strLtb dueDate today then "missed"
  else "scheduled"

/-- One row of `pm_completion_history`, the fields the endpoints touch. -/
structure PmCompletionRec where
  preventativeMaintenanceId : Nat
  locationId : Nat
  assetId : Option Nat
  dueDate : String
  completedAt : Option String
  notes : Option String
deriving DecidableEq, Repr

/-- One row of `calibration_completion_history`. -/
structure CalCompletionRec where
  assetId : Nat
  locationId : Nat
  dueDate : String
  completedAt : Option String
  notes : Option String
deriving DecidableEq, Repr

/-- `historyEntry?.completedAt ?? null` in the report row builders: null when
no history record exists for the key, otherwise its nullable completedAt. -/
def rowCompletedAt (entry : Option PmCompletionRec) : Option String :=
  match entry with
  | none => none
  | some h => h.completedAt

/-- The `where` clause of the completion upsert's `findOne`
(index.ts 1278-1283). -/
def pmKeyMatch (pmId : Nat) (dueDate : String) (r : PmCompletionRec) : Bool :=
  r.preventativeMaintenanceId == pmId && r.dueDate == dueDate

/-- The `where` clause of the calibration upsert's `findOne`
(index.ts 1383-1388). -/
def calKeyMatch (assetId : Nat) (dueDate : String) (r : CalCompletionRec) : Bool :=
  r.assetId == assetId && r.dueDate == dueDate

/-- `existing.update({...})` of the PM completion endpoint (index.ts
1286-1292): replace, in place, the first record matching the key, setting
`completedAt`, `notes` (kept when the parameter is nullish), `locationId`
and `assetId`. -/
def updateFirstPm (pm : PmEntity) (dueDate completedAt : String) (notes : Option String) :
    List PmCompletionRec → List PmCompletionRec
  | [] => []
  | r :: rest =>
    if pmKeyMatch pm.id dueDate r then
      { r with
        completedAt := some completedAt
        notes := match notes with
          | some n => some n
          | none => r.notes
        locationId := pm.locationId
        assetId := pm.assetId } :: rest
    else r :: updateFirstPm pm dueDate completedAt notes rest

/-- The upsert of POST `/api/preventative-maintenances/:id/completion-history`
(index.ts 1278-1302): `findOne` by `(preventativeMaintenanceId, dueDate)`,
update in place when found, otherwise create (append).  The `completedAt`
argument is the already-defaulted `parsed.data.completedAt ?? todayIso()`. -/
def logPmCompletion (ledger : List PmCompletionRec) (pm : PmEntity)
    (dueDate completedAt : String) (notes : Option String) : List PmCompletionRec :=
  match ledger.find? (pmKeyMatch pm.id dueDate) with
  | some _ => updateFirstPm pm dueDate completedAt notes ledger
  | none => ledger ++ [⟨pm.id, pm.locationId, pm.assetId, dueDate, some completedAt, notes⟩]

/-- `existing.update({...})` of the calibration completion endpoint
(index.ts 1391-1396). -/
def updateFirstCal (asset : AssetEntity) (dueDate completedAt : String)
    (notes : Option String) : List CalCompletionRec → List CalCompletionRec
  | [] => []
  | r :: rest =>
    if calKeyMatch asset.id dueDate r then
      { r with
        completedAt := some completedAt
        notes := match notes with
          | some n => some n
          | none => r.notes
        locationId := asset.locationId } :: rest
    else r :: updateFirstCal asset dueDate completedAt notes rest

/-- The upsert of POST `/api/assets/:id/calibration-history`
(index.ts 1383-1405). -/
def logCalCompletion (ledger : List CalCompletionRec) (asset : AssetEntity)
    (dueDate completedAt : String) (notes : Option String) : List CalCompletionRec :=
  match ledger.find? (calKeyMatch asset.id dueDate) with
  | some _ => updateFirstCal asset dueDate completedAt notes ledger
  | none => ledger ++ [⟨asset.id, asset.locationId, dueDate, some completedAt, notes⟩]

/-- Number of ledger rows carrying one `(preventativeMaintenanceId, dueDate)`
key — the quantity the upsert invariant bounds by one. -/
def countPmKey (ledger : List PmCompletionRec) (pmId : Nat) (dueDate : String) : Nat :=
  (ledger.filter (pmKeyMatch pmId dueDate)).length

/-- `pm.nextDue ? parseIsoDate(pm.nextDue) : null` (index.ts 1307, 1410). -/
def storedDueParse (stored : Option String) : Option YMD :=
  match stored with
  | none => none
  | some s => if s = "" then none else parseIsoDate s

/-- The next-due advance fragment shared verbatim by the two completion
endpoints (index.ts 1304-1311 for `pm.nextDue`, 1407-1414 for
`asset.calDue`): when a recurrence exists, compute the candidate next date
from the completed due date and store it only if the current stored value is
absent (falsy or unparseable) or not after the completed due date. -/
def advanceDue (recurrence : Option Recurrence) (stored : Option String)
    (dueDateObj : YMD) : Option String :=
  match recurrence with
  | none => stored
  | some r =>
    let nextDue := toIsoDate (nextRecurringDate dueDateObj r)
    match storedDueParse stored with
    | none => some nextDue
    | some cur => if ymdLe cur dueDateObj then some nextDue else stored

/-- The PM endpoint's instantiation of `advanceDue` (index.ts 1304-1311). -/
def pmAdvanceNextDue (pm : PmEntity) (dueDateObj : YMD) : Option String :=
  advanceDue (asRecurrence (orNullish pm.recurrence pm.frequency)) pm.nextDue dueDateObj

/-- The calibration endpoint's instantiation of `advanceDue`
(index.ts 1407-1414). -/
def assetAdvanceCalDue (asset : AssetEntity) (dueDateObj : YMD) : Option String :=
  advanceDue (asFlexibleRecurrence asset.calFreq) asset.calDue dueDateObj

/-- The completedAt values of one obligation's ledger rows, non-null only
(the `where` clause of `getLatestCompletedPmDateForPreventative`,
index.ts 171-184). -/
def completedDatesFor (ledger : List PmCompletionRec) (pmId : Nat) : List String :=
  ledger.filterMap (fun r => if r.preventativeMaintenanceId == pmId then r.completedAt else none)

/-- Maximum of a list of date strings under JS string order. -/
def maxStr? : List String → Option String
  | [] => none
  | c :: rest =>
    match maxStr? rest with
    | none => some c
    | some m => some (if strLeb c m then m else c)

/-- `getLatestCompletedPmDateForPreventative` (index.ts 171-184): `findOne`
over the obligation's rows with non-null `completedAt`, ordered by
`completedAt DESC` — i.e. the maximal completedAt, or null. -/
def getLatestCompletedPmDate (ledger : List PmCompletionRec) (pmId : Nat) : Option String :=
  maxStr? (completedDatesFor ledger pmId)

/-- `withDerivedPreventativeFields` (index.ts 291-297):
`lastPm: latestCompletedAt ?? item.lastPm ?? null`. -/
def derivedLastPm (ledger : List PmCompletionRec) (item : PmEntity) : Option String :=
  match getLatestCompletedPmDate ledger item.id with
  | some v => some v
  | none => item.lastPm

/-! ### Order lemmas for embedded JS `Date` comparison -/

theorem ymdLt_iff (a b : YMD) :
    ymdLt a b = true ↔ (a.y < b.y ∨ (a.y = b.y ∧ (a.m < b.m ∨ (a.m = b.m ∧ a.d < b.d)))) := by
  simp [ymdLt]

theorem ymdLe_iff (a b : YMD) :
    ymdLe a b = true ↔ (a.y < b.y ∨ (a.y = b.y ∧ (a.m < b.m ∨ (a.m = b.m ∧ a.d ≤ b.d)))) := by
  simp [ymdLe]

theorem ymdLe_refl (a : YMD) : ymdLe a a = true := by
  rw [ymdLe_iff]; omega

theorem ymdLe_of_lt {a b : YMD} (h : ymdLt a b = true) : ymdLe a b = true := by
  rw [ymdLt_iff] at h; rw [ymdLe_iff]; omega

theorem ymdLe_trans {a b c : YMD} (h1 : ymdLe a b = true) (h2 : ymdLe b c = true) :
    ymdLe a c = true := by
  rw [ymdLe_iff] at h1 h2; rw [ymdLe_iff]; omega

theorem ymdLt_of_lt_of_le {a b c : YMD} (h1 : ymdLt a b = true) (h2 : ymdLe b c = true) :
    ymdLt a c = true := by
  rw [ymdLt_iff] at h1; rw [ymdLe_iff] at h2; rw [ymdLt_iff]; omega

theorem ymdLt_nextDay (x : YMD) : ymdLt x (nextDay x) = true := by
  rw [ymdLt_iff]; unfold nextDay
  by_cases h1 : x.d < daysInMonth x.y x.m
  · simp [h1]
  · by_cases h2 : x.m < 12
    · simp [h1, h2]
    · simp [h1, h2]

theorem ymdLe_addDays (x : YMD) (n : Nat) : ymdLe x (addDays x n) = true := by
  induction n generalizing x with
  | zero => exact ymdLe_refl x
  | succ n ih =>
    show ymdLe x (addDays (nextDay x) n) = true
    exact ymdLe_trans (ymdLe_of_lt (ymdLt_nextDay x)) (ih (nextDay x))

theorem ymdLt_addDays (x : YMD) (n : Nat) : ymdLt x (addDays x (n + 1)) = true :=
  ymdLt_of_lt_of_le (ymdLt_nextDay x) (ymdLe_addDays (nextDay x) n)

theorem addMonths_def (x : YMD) (n : Nat) :
    addMonths x n =
      ⟨x.y + ((x.m - 1) + n) / 12, ((x.m - 1) + n) % 12 + 1,
       min x.d (daysInMonth (x.y + ((x.m - 1) + n) / 12) (((x.m - 1) + n) % 12 + 1))⟩ := rfl

theorem ymdLt_addMonths (x : YMD) (n : Nat) (h1 : 1 ≤ x.m) (h2 : x.m ≤ 12) (hn : 1 ≤ n) :
    ymdLt x (addMonths x n) = true := by
  rw [ymdLt_iff, addMonths_def]
  dsimp only
  omega

theorem ymdLt_nextRecurringDate (x : YMD) (r : Recurrence)
    (h1 : 1 ≤ x.m) (h2 : x.m ≤ 12) : ymdLt x (nextRecurringDate x r) = true := by
  cases r with
  | weekly => exact ymdLt_addDays x 6
  | biWeekly => exact ymdLt_addDays x 13
  | monthly => exact ymdLt_addMonths x 1 h1 h2 (by omega)
  | biMonthly => exact ymdLt_addMonths x 2 h1 h2 (by omega)
  | quarterly => exact ymdLt_addMonths x 3 h1 h2 (by omega)
  | every6Months => exact ymdLt_addMonths x 6 h1 h2 (by omega)
  | yearly => exact ymdLt_addMonths x 12 h1 h2 (by omega)
  | biYearly => exact ymdLt_addMonths x 24 h1 h2 (by omega)

/-! ### C4: addMonths day-of-month preservation and clamping -/

/-- C4.  For every valid calendar date and month count n ≥ 1, `addMonths`
preserves the day-of-month when the target month has that many days and
otherwise clamps to the last day of the target month; in particular
Jan 31 2024 + 1 month = Feb 29 2024, Jan 31 2023 + 1 month = Feb 28 2023,
and Mar 31 2024 + 1 month = Apr 30 2024. -/
theorem addMonths_clamps_day (x : YMD) (n : Nat) (hv : validYMD x) (hn : 1 ≤ n) :
    ((x.d ≤ daysInMonth (addMonths x n).y (addMonths x n).m → (addMonths x n).d = x.d)
   ∧ (daysInMonth (addMonths x n).y (addMonths x n).m < x.d →
        (addMonths x n).d = daysInMonth (addMonths x n).y (addMonths x n).m))
  ∧ addMonths ⟨2024, 1, 31⟩ 1 = ⟨2024, 2, 29⟩
  ∧ addMonths ⟨2023, 1, 31⟩ 1 = ⟨2023, 2, 28⟩
  ∧ addMonths ⟨2024, 3, 31⟩ 1 = ⟨2024, 4, 30⟩ := by
  refine ⟨⟨?_, ?_⟩, by decide, by decide, by decide⟩
  · intro h
    rw [addMonths_def] at h ⊢
    dsimp only at h ⊢
    omega
  · intro h
    rw [addMonths_def] at h ⊢
    dsimp only at h ⊢
    omega

/-- Witness for `addMonths_clamps_day` at the leap-year example. -/
theorem addMonths_clamps_day_witness :
    validYMD ⟨2024, 1, 31⟩ ∧ addMonths ⟨2024, 1, 31⟩ 1 = ⟨2024, 2, 29⟩ :=
  ⟨by decide, (addMonths_clamps_day ⟨2024, 1, 31⟩ 1 (by decide) (by decide)).2.1⟩

/-! ### C1: compliance report row classification -/

/-- C1.  The status of a reconciled report row is the deterministic function
of (dueDate, completedAt, today) used by both `pmRows` and `calibrationRows`:
with no history record or a null completedAt, "missed" when dueDate < today,
"scheduled" when dueDate >= today; with a (schema-validated, hence non-empty)
completedAt, "completed-on-time" when completedAt <= dueDate and
"completed-late" when completedAt > dueDate — all comparisons being JS
lexical string comparison on ISO dates. -/
theorem row_status_classification (entry : Option PmCompletionRec) (dueDate today : String) :
    (rowCompletedAt entry = none →
      ((strLtb dueDate today = true → rowStatus (rowCompletedAt entry) dueDate today = "missed")
     ∧ (strLtb dueDate today = false →
          rowStatus (rowCompletedAt entry) dueDate today = "scheduled")))
  ∧ (∀ s, rowCompletedAt entry = some s → s ≠ "" →
      ((strLeb s dueDate = true →
          rowStatus (rowCompletedAt entry) dueDate today = "completed-on-time")
     ∧ (strLtb dueDate s = true →
          rowStatus (rowCompletedAt entry) dueDate today = "completed-late"))) := by
  constructor
  · intro hnone
    rw [hnone]
    constructor
    · intro hlt
      simp [rowStatus, jsTruthy, hlt]
    · intro hlt
      simp [rowStatus, jsTruthy, hlt]
  · intro s hsome hne
    rw [hsome]
    constructor
    · intro hle
      have hlt : strLtb dueDate s = false := by
        have := congrArg Bool.not hle
        simpa [strLeb] using this
      simp [rowStatus, jsTruthy, hne, hlt]
    · intro hlt
      simp [rowStatus, jsTruthy, hne, hlt]

/-- Witness for `row_status_classification`: due 2025-05-01 completed
2025-06-01 is classified completed-late. -/
theorem row_status_classification_witness :
    rowStatus (rowCompletedAt (some ⟨1, 1, none, "2025-05-01", some "2025-06-01", none⟩))
      "2025-05-01" "2025-06-15" = "completed-late" :=
  ((row_status_classification
      (some ⟨1, 1, none, "2025-05-01", some "2025-06-01", none⟩) "2025-05-01" "2025-06-15").2
    "2025-06-01" rfl (by decide)).2 (by decide)

/-! ### C2: no-rule single occurrence -/

/-- C2 counterexample.  A PM obligation with no recurrence rule and a parsing
anchor inside the window yields `[]`, not `[anchor]`: `buildDueDatesInRange`
returns the empty list whenever `asRecurrence` yields null, so the claimed
behaviour holds only for the calibration generator. -/
theorem pm_norule_counterexample :
    buildDueDatesInRange ⟨1, 1, none, none, none, some "2025-03-01", none, none⟩
      ⟨2025, 1, 1⟩ ⟨2025, 12, 31⟩ ≠ ["2025-03-01"] := by decide

/-- C2 amended.  With a null (absent or unparseable) rule and a parsing
anchor, the calibration generator returns `[anchor]` exactly when
windowStart <= anchor <= windowEnd and `[]` otherwise, while the PM
generator returns `[]` unconditionally. -/
theorem norule_single_occurrence (asset : AssetEntity) (anchorRaw : String)
    (anchor startDate endDate : YMD) (pm : PmEntity)
    (hdue : asset.calDue = some anchorRaw)
    (hparse : parseIsoDate anchorRaw = some anchor)
    (hflex : asFlexibleRecurrence asset.calFreq = none)
    (hpm : asRecurrence (orNullish pm.recurrence pm.frequency) = none) :
    buildCalibrationDueDatesInRange asset startDate endDate =
      (if ymdLe startDate anchor && ymdLe anchor endDate then [toIsoDate anchor] else [])
  ∧ buildDueDatesInRange pm startDate endDate = [] := by
  have hne : anchorRaw ≠ "" := by
    intro h
    rw [h] at hparse
    exact Option.noConfusion hparse
  constructor
  · unfold buildCalibrationDueDatesInRange
    rw [hdue]
    simp [hne, hparse, hflex]
  · unfold buildDueDatesInRange
    rw [hpm]

/-- Witness for `norule_single_occurrence`: anchor 2025-03-01 with window
2025-01-01..2025-12-31 yields exactly the anchor, and the PM generator
yields nothing. -/
theorem norule_single_occurrence_witness :
    buildCalibrationDueDatesInRange ⟨1, 1, some "2025-03-01", none, none⟩
        ⟨2025, 1, 1⟩ ⟨2025, 12, 31⟩ =
      (if ymdLe ⟨2025, 1, 1⟩ ⟨2025, 3, 1⟩ && ymdLe ⟨2025, 3, 1⟩ ⟨2025, 12, 31⟩ then
        [toIsoDate ⟨2025, 3, 1⟩] else [])
  ∧ buildDueDatesInRange ⟨1, 1, none, none, none, some "2025-03-01", none, none⟩
      ⟨2025, 1, 1⟩ ⟨2025, 12, 31⟩ = [] :=
  norule_single_occurrence ⟨1, 1, some "2025-03-01", none, none⟩ "2025-03-01"
    ⟨2025, 3, 1⟩ ⟨2025, 1, 1⟩ ⟨2025, 12, 31⟩
    ⟨1, 1, none, none, none, some "2025-03-01", none, none⟩
    rfl (by decide) (by decide) (by decide)

/-! ### C5: next-due advance guard and monotonicity -/

theorem advanceDue_spec (r : Recurrence) (stored : Option String) (due cur : YMD)
    (hcur : storedDueParse stored = some cur) (hv : validYMD due) :
    (ymdLe cur due = false → advanceDue (some r) stored due = stored)
  ∧ (ymdLe cur due = true →
       advanceDue (some r) stored due = some (toIsoDate (nextRecurringDate due r)))
  ∧ (advanceDue (some r) stored due = stored ∨
       (advanceDue (some r) stored due = some (toIsoDate (nextRecurringDate due r))
        ∧ ymdLe cur (nextRecurringDate due r) = true)) := by
  have hstep : ymdLt due (nextRecurringDate due r) = true :=
    ymdLt_nextRecurringDate due r hv.1 hv.2.1
  have hadv : advanceDue (some r) stored due =
      if ymdLe cur due then some (toIsoDate (nextRecurringDate due r)) else stored := by
    simp [advanceDue, hcur]
  by_cases hg : ymdLe cur due = true
  · rw [hadv, if_pos hg]
    refine ⟨fun hf => ?_, fun _ => rfl,
            Or.inr ⟨rfl, ymdLe_trans hg (ymdLe_of_lt hstep)⟩⟩
    rw [hg] at hf
    exact Bool.noConfusion hf
  · have hg' : ymdLe cur due = false := by
      revert hg; cases ymdLe cur due <;> simp
    rw [hadv, if_neg (by simp [hg'])]
    exact ⟨fun _ => rfl, fun ht => absurd ht hg, Or.inl rfl⟩

/-- C5.  On completion logging, the stored next-due (PM `nextDue`,
asset `calDue`) is replaced by `nextRecurringDate(dueDate, rule)` only when
the stored value is absent or not after the completed due date; in
particular a completion for a due date earlier than the stored next-due
leaves it unchanged, and any replacement value is >= the previous one —
the schedule never moves backward. -/
theorem completion_nextdue_advance (pm : PmEntity) (asset : AssetEntity)
    (due curPm curCal : YMD) (rPm rCal : Recurrence)
    (hrp : asRecurrence (orNullish pm.recurrence pm.frequency) = some rPm)
    (hcp : storedDueParse pm.nextDue = some curPm)
    (hrc : asFlexibleRecurrence asset.calFreq = some rCal)
    (hcc : storedDueParse asset.calDue = some curCal)
    (hv : validYMD due) :
    ((ymdLe curPm due = false → pmAdvanceNextDue pm due = pm.nextDue)
   ∧ (pmAdvanceNextDue pm due = pm.nextDue ∨
        (pmAdvanceNextDue pm due = some (toIsoDate (nextRecurringDate due rPm))
         ∧ ymdLe curPm (nextRecurringDate due rPm) = true)))
  ∧ ((ymdLe curCal due = false → assetAdvanceCalDue asset due = asset.calDue)
   ∧ (assetAdvanceCalDue asset due = asset.calDue ∨
        (assetAdvanceCalDue asset due = some (toIsoDate (nextRecurringDate due rCal))
         ∧ ymdLe curCal (nextRecurringDate due rCal) = true))) := by
  have h1 := advanceDue_spec rPm pm.nextDue due curPm hcp hv
  have h2 := advanceDue_spec rCal asset.calDue due curCal hcc hv
  unfold pmAdvanceNextDue assetAdvanceCalDue
  rw [hrp, hrc]
  exact ⟨⟨h1.1, h1.2.2⟩, ⟨h2.1, h2.2.2⟩⟩

/-- Witness for `completion_nextdue_advance`: completing the 2025-05-15
cycle while next-due is already 2025-07-01 leaves both stored next-due
values unchanged. -/
theorem completion_nextdue_advance_witness :
    pmAdvanceNextDue ⟨1, 1, none, some "monthly", none, none, some "2025-07-01", none⟩
        ⟨2025, 5, 15⟩ = some "2025-07-01"
  ∧ assetAdvanceCalDue ⟨1, 1, some "2025-07-01", some "annual", none⟩
        ⟨2025, 5, 15⟩ = some "2025-07-01" :=
  ⟨(completion_nextdue_advance
      ⟨1, 1, none, some "monthly", none, none, some "2025-07-01", none⟩
      ⟨1, 1, some "2025-07-01", some "annual", none⟩
      ⟨2025, 5, 15⟩ ⟨2025, 7, 1⟩ ⟨2025, 7, 1⟩ .monthly .yearly
      (by decide) (by decide) (by decide) (by decide) (by decide)).1.1 (by decide),
   (completion_nextdue_advance
      ⟨1, 1, none, some "monthly", none, none, some "2025-07-01", none⟩
      ⟨1, 1, some "2025-07-01", some "annual", none⟩
      ⟨2025, 5, 15⟩ ⟨2025, 7, 1⟩ ⟨2025, 7, 1⟩ .monthly .yearly
      (by decide) (by decide) (by decide) (by decide) (by decide)).2.1 (by decide)⟩

/-! ### Generator loop bounds (C8) and calendar/report agreement (C7) -/

theorem fastForward_safety_le (r : Recurrence) (sd : YMD) :
    ∀ (fuel : Nat) (occ : YMD) (s0 : Nat), (fastForward r sd fuel occ s0).2 ≤ s0 + fuel := by
  intro fuel
  induction fuel with
  | zero => intro occ s0; exact Nat.le_refl _
  | succ n ih =>
    intro occ s0
    unfold fastForward
    split
    · have := ih (nextRecurringDate occ r) (s0 + 1)
      omega
    · show s0 ≤ s0 + (n + 1)
      omega

theorem collectDueDates_length_le (r : Recurrence) (e : YMD) :
    ∀ (fuel : Nat) (occ : YMD), (collectDueDates r e fuel occ).length ≤ fuel := by
  intro fuel
  induction fuel with
  | zero => intro occ; exact Nat.le_refl _
  | succ n ih =>
    intro occ
    unfold collectDueDates
    split
    · simpa using ih (nextRecurringDate occ r)
    · simp

theorem collectDueDates_monotone (r : Recurrence) (e : YMD) :
    ∀ (f1 f2 : Nat) (occ : YMD), f1 ≤ f2 →
      ∃ t, collectDueDates r e f2 occ = collectDueDates r e f1 occ ++ t := by
  intro f1
  induction f1 with
  | zero =>
    intro f2 occ _
    exact ⟨collectDueDates r e f2 occ, by simp [collectDueDates]⟩
  | succ n ih =>
    intro f2 occ hle
    obtain ⟨g, rfl⟩ : ∃ g, f2 = g + 1 := ⟨f2 - 1, by omega⟩
    by_cases hc : ymdLe occ e = true
    · obtain ⟨t, ht⟩ := ih g (nextRecurringDate occ r) (by omega)
      refine ⟨t, ?_⟩
      unfold collectDueDates
      rw [if_pos hc, if_pos hc, ht]
      simp
    · refine ⟨[], ?_⟩
      unfold collectDueDates
      rw [if_neg hc, if_neg hc]
      simp

theorem collectDueDates_eq_of_le (r : Recurrence) (e : YMD) :
    ∀ (f1 f2 : Nat) (occ : YMD), f1 ≤ f2 →
      (collectDueDates r e f2 occ).length ≤ f1 →
      collectDueDates r e f1 occ = collectDueDates r e f2 occ := by
  intro f1
  induction f1 with
  | zero =>
    intro f2 occ _ hlen
    have h0 : collectDueDates r e f2 occ = [] :=
      List.length_eq_zero.mp (Nat.le_zero.mp hlen)
    rw [h0]
    rfl
  | succ n ih =>
    intro f2 occ hle hlen
    obtain ⟨g, rfl⟩ : ∃ g, f2 = g + 1 := ⟨f2 - 1, by omega⟩
    by_cases hc : ymdLe occ e = true
    · have hlen' : (collectDueDates r e g (nextRecurringDate occ r)).length ≤ n := by
        unfold collectDueDates at hlen
        rw [if_pos hc] at hlen
        simpa using hlen
      unfold collectDueDates
      rw [if_pos hc, if_pos hc, ih g (nextRecurringDate occ r) (by omega) hlen']
    · unfold collectDueDates
      rw [if_neg hc, if_neg hc]

theorem generateFromAnchor_length_le (r : Recurrence) (anchor s e : YMD) (cap : Nat) :
    (generateFromAnchor r anchor s e cap).length ≤ cap := by
  unfold generateFromAnchor
  have h := collectDueDates_length_le r e (cap - (fastForward r s 500 anchor 0).2)
    (fastForward r s 500 anchor 0).1
  omega

/-! ### C8: termination and iteration caps -/

/-- C8.  For every anchor, rule and window the generation is total and
bounded: the fast-forward phase takes at most 500 steps, the two phases
together at most 700 (the collected list has at most `700 - s₁` entries
after `s₁` fast-forward steps, so at most 700 for any obligation), and the
pathological weekly rule anchored 20 years before a one-month window yields
a truncated 200-entry list rather than an error or hang. -/
theorem generator_iteration_caps (r : Recurrence) (anchor startDate endDate : YMD)
    (pm : PmEntity) :
    (fastForward r startDate 500 anchor 0).2 ≤ 500
  ∧ (fastForward r startDate 500 anchor 0).2 +
      (generateFromAnchor r anchor startDate endDate 700).length ≤ 700
  ∧ (buildDueDatesInRange pm startDate endDate).length ≤ 700
  ∧ (buildDueDatesInRange ⟨1, 1, none, some "weekly", none, some "2005-06-06", none, none⟩
       ⟨2025, 6, 1⟩ ⟨2025, 6, 30⟩).length = 200 := by
  refine ⟨?_, ?_, ?_, by decide⟩
  · simpa using fastForward_safety_le r startDate 500 anchor 0
  · have h1 := collectDueDates_length_le r endDate
      (700 - (fastForward r startDate 500 anchor 0).2) (fastForward r startDate 500 anchor 0).1
    have h2 := fastForward_safety_le r startDate 500 anchor 0
    unfold generateFromAnchor
    omega
  · unfold buildDueDatesInRange
    repeat' split
    all_goals first
      | exact generateFromAnchor_length_le _ _ _ _ _
      | simp

/-! ### C3: generated dates can precede the window (code bug) -/

/-- C3 evidence.  A weekly rule anchored 2000-01-03 with window
2025-06-01..2025-06-30 exhausts the 500-step fast-forward cap and the
collection loop then emits 200 weekly dates, every one of them strictly
before the window start — the report rows are not confined to the window. -/
theorem out_of_window_dates_on_cap_exhaustion :
    (buildDueDatesInRange ⟨1, 1, none, some "weekly", none, some "2000-01-03", none, none⟩
       ⟨2025, 6, 1⟩ ⟨2025, 6, 30⟩).length = 200
  ∧ (buildDueDatesInRange ⟨1, 1, none, some "weekly", none, some "2000-01-03", none, none⟩
       ⟨2025, 6, 1⟩ ⟨2025, 6, 30⟩).all (fun d => strLtb d "2025-06-01") = true :=
  ⟨by decide, by decide⟩

/-! ### C7: calendar view vs compliance report generation -/

/-- C7 counterexample.  With the same weekly rule, anchor and window, the
calendar view (collection capped at 600 steps) and the compliance report
(capped at 700) disagree: a window long enough to need more than 600
collected dates yields lists of different length. -/
theorem calendar_report_disagree :
    frontendPmEventDates .weekly ⟨2000, 1, 3⟩ ⟨2000, 1, 3⟩ ⟨2020, 1, 1⟩ ≠
      generateFromAnchor .weekly ⟨2000, 1, 3⟩ ⟨2000, 1, 3⟩ ⟨2020, 1, 1⟩ 700 := by
  decide

/-- C7 amended.  The two implementations share the arithmetic and the
500-step fast-forward cap and differ only in the collection cap (600 in the
calendar view, 700 in the report), so the calendar view's date sequence is
always a prefix of the report's, and the two agree whenever the report's
run stays within 600 total steps. -/
theorem calendar_report_generator_agreement (r : Recurrence) (anchor startB endB : YMD) :
    (∃ t, generateFromAnchor r anchor startB endB 700 =
            frontendPmEventDates r anchor startB endB ++ t)
  ∧ ((generateFromAnchor r anchor startB endB 700).length +
        (fastForward r startB 500 anchor 0).2 ≤ 600 →
      frontendPmEventDates r anchor startB endB =
        generateFromAnchor r anchor startB endB 700) := by
  constructor
  · unfold frontendPmEventDates generateFromAnchor
    exact collectDueDates_monotone r endB (600 - (fastForward r startB 500 anchor 0).2)
      (700 - (fastForward r startB 500 anchor 0).2) (fastForward r startB 500 anchor 0).1
      (by omega)
  · intro h
    unfold generateFromAnchor at h
    unfold frontendPmEventDates generateFromAnchor
    have hs : (fastForward r startB 500 anchor 0).2 ≤ 500 := by
      simpa using fastForward_safety_le r startB 500 anchor 0
    exact collectDueDates_eq_of_le r endB (600 - (fastForward r startB 500 anchor 0).2)
      (700 - (fastForward r startB 500 anchor 0).2) (fastForward r startB 500 anchor 0).1
      (by omega) (by omega)

/-- Witness for `calendar_report_generator_agreement`: a small weekly schedule
well inside the caps, on which calendar view and report agree exactly. -/
theorem calendar_report_generator_agreement_witness :
    frontendPmEventDates .weekly ⟨2025, 6, 2⟩ ⟨2025, 6, 1⟩ ⟨2025, 6, 30⟩ =
      generateFromAnchor .weekly ⟨2025, 6, 2⟩ ⟨2025, 6, 1⟩ ⟨2025, 6, 30⟩ 700 :=
  (calendar_report_generator_agreement .weekly ⟨2025, 6, 2⟩ ⟨2025, 6, 1⟩ ⟨2025, 6, 30⟩).2
    (by decide)

/-! ### Ledger upsert lemmas (C6, C10) -/

theorem pmKeyMatch_update (i : Nat) (d : String) (r : PmCompletionRec) (lid : Nat)
    (aid : Option Nat) (c : Option String) (notes' : Option String) :
    pmKeyMatch i d
      { r with completedAt := c, notes := notes', locationId := lid, assetId := aid } =
    pmKeyMatch i d r := rfl

theorem countPmKey_updateFirstPm (pm : PmEntity) (due c : String) (notes : Option String)
    (i : Nat) (d : String) :
    ∀ l, countPmKey (updateFirstPm pm due c notes l) i d = countPmKey l i d := by
  intro l
  induction l with
  | nil => rfl
  | cons r rest ih =>
    unfold updateFirstPm
    by_cases h : pmKeyMatch pm.id due r = true
    · rw [if_pos h]
      by_cases h2 : pmKeyMatch i d r = true <;>
        simp [countPmKey, List.filter_cons, pmKeyMatch_update, h2]
    · rw [if_neg h]
      by_cases h2 : pmKeyMatch i d r = true <;>
        simpa [countPmKey, List.filter_cons, h2] using ih

theorem countPmKey_append_single (l : List PmCompletionRec) (x : PmCompletionRec)
    (i : Nat) (d : String) :
    countPmKey (l ++ [x]) i d =
      countPmKey l i d + (if pmKeyMatch i d x = true then 1 else 0) := by
  by_cases h : pmKeyMatch i d x = true <;>
    simp [countPmKey, List.filter_append, List.filter_cons, h]

theorem countPmKey_eq_zero_iff (l : List PmCompletionRec) (i : Nat) (d : String) :
    countPmKey l i d = 0 ↔ l.find? (pmKeyMatch i d) = none := by
  simp [countPmKey, List.length_eq_zero, List.filter_eq_nil_iff, List.find?_eq_none]

theorem countPmKey_pos_of_find? (l : List PmCompletionRec) (i : Nat) (d : String)
    (r : PmCompletionRec) (h : l.find? (pmKeyMatch i d) = some r) :
    0 < countPmKey l i d := by
  have hmem : r ∈ l := List.mem_of_find?_eq_some h
  have hp : pmKeyMatch i d r = true := List.find?_some h
  have : r ∈ l.filter (pmKeyMatch i d) := List.mem_filter.mpr ⟨hmem, hp⟩
  have := List.length_pos.mpr (List.ne_nil_of_mem this)
  simpa [countPmKey] using this

theorem find?_isSome_of_countPmKey_pos (l : List PmCompletionRec) (i : Nat) (d : String)
    (h : 0 < countPmKey l i d) : (l.find? (pmKeyMatch i d)).isSome = true := by
  rcases hf : l.find? (pmKeyMatch i d) with _ | r
  · have := (countPmKey_eq_zero_iff l i d).mpr hf
    omega
  · rfl

theorem updateFirstPm_match_fields (pm : PmEntity) (due c : String) (n2 : String) :
    ∀ l, countPmKey l pm.id due ≤ 1 →
      ∀ r' ∈ updateFirstPm pm due c (some n2) l, pmKeyMatch pm.id due r' = true →
        r'.completedAt = some c ∧ r'.notes = some n2 := by
  intro l
  induction l with
  | nil =>
    intro _ r' hr'
    simp [updateFirstPm] at hr'
  | cons r rest ih =>
    intro hcnt r' hmem hmatch
    unfold updateFirstPm at hmem
    by_cases h : pmKeyMatch pm.id due r = true
    · rw [if_pos h] at hmem
      rcases List.mem_cons.mp hmem with heq | htail
      · subst heq
        exact ⟨rfl, rfl⟩
      · have hc0 : countPmKey rest pm.id due = 0 := by
          have hc : countPmKey (r :: rest) pm.id due = countPmKey rest pm.id due + 1 := by
            simp [countPmKey, List.filter_cons, h]
          omega
        have hnone := (countPmKey_eq_zero_iff rest pm.id due).mp hc0
        have hall := List.find?_eq_none.mp hnone r' htail
        exact absurd hmatch (by simpa using hall)
    · rw [if_neg h] at hmem
      rcases List.mem_cons.mp hmem with heq | htail
      · subst heq
        exact absurd hmatch (by simpa using h)
      · have hcnt' : countPmKey rest pm.id due ≤ 1 := by
          have hc : countPmKey (r :: rest) pm.id due = countPmKey rest pm.id due := by
            simp [countPmKey, List.filter_cons, h]
          omega
        exact ih hcnt' r' htail hmatch

/-! ### C6: upsert keeps at most one record per key, last log wins -/

/-- C6.  Starting from a ledger with at most one CompletionRecord per
`(preventativeMaintenanceId, dueDate)` key, any completion log preserves
that bound, and logging twice for the same key leaves exactly one record
for it, carrying the second call's completedAt and notes. -/
theorem completion_upsert_unique (ledger : List PmCompletionRec) (pm : PmEntity)
    (due c1 c2 n1 n2 : String)
    (hinv : ∀ i d, countPmKey ledger i d ≤ 1) :
    (∀ (d c : String) (notes : Option String) (i : Nat) (d' : String),
        countPmKey (logPmCompletion ledger pm d c notes) i d' ≤ 1)
  ∧ countPmKey
      (logPmCompletion (logPmCompletion ledger pm due c1 (some n1)) pm due c2 (some n2))
      pm.id due = 1
  ∧ (∀ r ∈ logPmCompletion (logPmCompletion ledger pm due c1 (some n1)) pm due c2 (some n2),
        pmKeyMatch pm.id due r = true → r.completedAt = some c2 ∧ r.notes = some n2) := by
  have preserve : ∀ (led : List PmCompletionRec), (∀ i d, countPmKey led i d ≤ 1) →
      ∀ (d c : String) (notes : Option String) (i : Nat) (d' : String),
        countPmKey (logPmCompletion led pm d c notes) i d' ≤ 1 := by
    intro led hled d c notes i d'
    rcases hf : led.find? (pmKeyMatch pm.id d) with _ | r0
    · simp only [logPmCompletion, hf]
      rw [countPmKey_append_single]
      by_cases hx :
          pmKeyMatch i d' (⟨pm.id, pm.locationId, pm.assetId, d, some c, notes⟩ :
            PmCompletionRec) = true
      · have hk : pm.id = i ∧ d = d' := by
          simpa [pmKeyMatch] using hx
        have h0 : countPmKey led i d' = 0 := by
          rcases hk with ⟨hk1, hk2⟩
          subst hk1
          subst hk2
          exact (countPmKey_eq_zero_iff led pm.id d).mpr hf
        simp [hx, h0]
      · have hled' := hled i d'
        simp [hx]
        omega
    · simp only [logPmCompletion, hf]
      rw [countPmKey_updateFirstPm]
      exact hled i d'
  have hone : ∀ (led : List PmCompletionRec), (∀ i d, countPmKey led i d ≤ 1) →
      ∀ (c : String) (notes : Option String),
        countPmKey (logPmCompletion led pm due c notes) pm.id due = 1 := by
    intro led hled c notes
    rcases hf : led.find? (pmKeyMatch pm.id due) with _ | r0
    · simp only [logPmCompletion, hf]
      rw [countPmKey_append_single]
      have h0 : countPmKey led pm.id due = 0 := (countPmKey_eq_zero_iff led pm.id due).mpr hf
      simp [pmKeyMatch, h0]
    · simp only [logPmCompletion, hf]
      rw [countPmKey_updateFirstPm]
      have hpos := countPmKey_pos_of_find? led pm.id due r0 hf
      have := hled pm.id due
      omega
  have hL1 : ∀ i d, countPmKey (logPmCompletion ledger pm due c1 (some n1)) i d ≤ 1 :=
    fun i d => preserve ledger hinv due c1 (some n1) i d
  have hL1count : countPmKey (logPmCompletion ledger pm due c1 (some n1)) pm.id due = 1 :=
    hone ledger hinv c1 (some n1)
  refine ⟨preserve ledger hinv, hone _ hL1 c2 (some n2), ?_⟩
  intro r hr hmatch
  set L1 := logPmCompletion ledger pm due c1 (some n1) with hL1def
  rcases hf2 : L1.find? (pmKeyMatch pm.id due) with _ | r1
  · have h0 := (countPmKey_eq_zero_iff L1 pm.id due).mpr hf2
    omega
  · have hstep : logPmCompletion L1 pm due c2 (some n2) =
        updateFirstPm pm due c2 (some n2) L1 := by
      unfold logPmCompletion
      rw [hf2]
    rw [hstep] at hr
    exact updateFirstPm_match_fields pm due c2 n2 L1 (hL1 pm.id due) r hr hmatch

/-- Witness for `completion_upsert_unique`: two logs for the same due date
on an empty ledger leave a single record. -/
theorem completion_upsert_unique_witness :
    countPmKey
      (logPmCompletion
        (logPmCompletion [] ⟨1, 2, none, some "monthly", none, none, none, none⟩
          "2025-06-01" "2025-06-02" (some "first"))
        ⟨1, 2, none, some "monthly", none, none, none, none⟩
        "2025-06-01" "2025-06-05" (some "second")) 1 "2025-06-01" = 1 :=
  (completion_upsert_unique [] ⟨1, 2, none, some "monthly", none, none, none, none⟩
    "2025-06-01" "2025-06-02" "2025-06-05" "first" "second"
    (fun i d => by simp [countPmKey])).2.1

/-! ### C10: re-logging without notes keeps the stored notes -/

theorem find?_updateFirstPm (pm : PmEntity) (due c : String) (notes : Option String) :
    ∀ (l : List PmCompletionRec) (r : PmCompletionRec),
      l.find? (pmKeyMatch pm.id due) = some r →
      (updateFirstPm pm due c notes l).find? (pmKeyMatch pm.id due) =
        some { r with
                completedAt := some c
                notes := match notes with
                  | some n => some n
                  | none => r.notes
                locationId := pm.locationId
                assetId := pm.assetId } := by
  intro l
  induction l with
  | nil =>
    intro r h
    exact Option.noConfusion h
  | cons x rest ih =>
    intro r h
    by_cases hx : pmKeyMatch pm.id due x = true
    · rw [List.find?_cons_of_pos _ hx] at h
      injection h with h
      subst h
      unfold updateFirstPm
      rw [if_pos hx]
      exact List.find?_cons_of_pos _ (by rw [pmKeyMatch_update]; exact hx)
    · rw [List.find?_cons_of_neg _ hx] at h
      unfold updateFirstPm
      rw [if_neg hx, List.find?_cons_of_neg _ hx]
      exact ih r h

theorem calKeyMatch_update (i : Nat) (d : String) (r : CalCompletionRec) (lid : Nat)
    (c : Option String) (notes' : Option String) :
    calKeyMatch i d { r with completedAt := c, notes := notes', locationId := lid } =
    calKeyMatch i d r := rfl

theorem find?_updateFirstCal (asset : AssetEntity) (due c : String) (notes : Option String) :
    ∀ (l : List CalCompletionRec) (r : CalCompletionRec),
      l.find? (calKeyMatch asset.id due) = some r →
      (updateFirstCal asset due c notes l).find? (calKeyMatch asset.id due) =
        some { r with
                completedAt := some c
                notes := match notes with
                  | some n => some n
                  | none => r.notes
                locationId := asset.locationId } := by
  intro l
  induction l with
  | nil =>
    intro r h
    exact Option.noConfusion h
  | cons x rest ih =>
    intro r h
    by_cases hx : calKeyMatch asset.id due x = true
    · rw [List.find?_cons_of_pos _ hx] at h
      injection h with h
      subst h
      unfold updateFirstCal
      rw [if_pos hx]
      exact List.find?_cons_of_pos _ (by rw [calKeyMatch_update]; exact hx)
    · rw [List.find?_cons_of_neg _ hx] at h
      unfold updateFirstCal
      rw [if_neg hx, List.find?_cons_of_neg _ hx]
      exact ih r h

/-- C10.  Re-logging a completion for an existing `(obligationId, dueDate)`
key with the notes parameter omitted or null replaces completedAt (and
refreshes location/asset) but leaves the stored notes unchanged, for both
the PM and the calibration completion-history endpoints. -/
theorem relog_without_notes_preserves_notes (pLedger : List PmCompletionRec)
    (pm : PmEntity) (due c : String) (r : PmCompletionRec)
    (hfind : pLedger.find? (pmKeyMatch pm.id due) = some r)
    (cLedger : List CalCompletionRec) (asset : AssetEntity) (cdue cc : String)
    (s : CalCompletionRec)
    (hfindc : cLedger.find? (calKeyMatch asset.id cdue) = some s) :
    (logPmCompletion pLedger pm due c none).find? (pmKeyMatch pm.id due) =
      some { r with
              completedAt := some c
              notes := r.notes
              locationId := pm.locationId
              assetId := pm.assetId }
  ∧ (logCalCompletion cLedger asset cdue cc none).find? (calKeyMatch asset.id cdue) =
      some { s with
              completedAt := some cc
              notes := s.notes
              locationId := asset.locationId } := by
  constructor
  · simp only [logPmCompletion, hfind]
    exact find?_updateFirstPm pm due c none pLedger r hfind
  · simp only [logCalCompletion, hfindc]
    exact find?_updateFirstCal asset cdue cc none cLedger s hfindc

/-- Witness for `relog_without_notes_preserves_notes`: re-logging without
notes keeps "existing note" while replacing completedAt. -/
theorem relog_without_notes_preserves_notes_witness :
    (logPmCompletion [⟨1, 2, none, "2025-06-01", some "2025-06-02", some "existing note"⟩]
        ⟨1, 2, none, some "monthly", none, none, none, none⟩ "2025-06-01" "2025-06-09"
        none).find? (pmKeyMatch 1 "2025-06-01") =
      some ⟨1, 2, none, "2025-06-01", some "2025-06-09", some "existing note"⟩
  ∧ (logCalCompletion [⟨7, 3, "2025-06-01", some "2025-06-02", some "cal note"⟩]
        ⟨7, 3, some "2025-07-01", some "annual", none⟩ "2025-06-01" "2025-06-09"
        none).find? (calKeyMatch 7 "2025-06-01") =
      some ⟨7, 3, "2025-06-01", some "2025-06-09", some "cal note"⟩ :=
  relog_without_notes_preserves_notes
    [⟨1, 2, none, "2025-06-01", some "2025-06-02", some "existing note"⟩]
    ⟨1, 2, none, some "monthly", none, none, none, none⟩ "2025-06-01" "2025-06-09"
    ⟨1, 2, none, "2025-06-01", some "2025-06-02", some "existing note"⟩ (by decide)
    [⟨7, 3, "2025-06-01", some "2025-06-02", some "cal note"⟩]
    ⟨7, 3, some "2025-07-01", some "annual", none⟩ "2025-06-01" "2025-06-09"
    ⟨7, 3, "2025-06-01", some "2025-06-02", some "cal note"⟩ (by decide)

/-! ### String order lemmas (for C9) -/

theorem charListLt_cons_iff (a b : Char) (as bs : List Char) :
    charListLt (a :: as) (b :: bs) = true ↔
      (a.toNat < b.toNat ∨ (a.toNat = b.toNat ∧ charListLt as bs = true)) := by
  simp [charListLt]

theorem charListLt_irrefl : ∀ l, charListLt l l = false := by
  intro l
  induction l with
  | nil => rfl
  | cons a as ih => simp [charListLt, ih]

theorem charListLt_asymm : ∀ l1 l2, charListLt l1 l2 = true → charListLt l2 l1 = false := by
  intro l1
  induction l1 with
  | nil =>
    intro l2 h
    cases l2 with
    | nil => exact absurd h (by simp [charListLt])
    | cons b bs => rfl
  | cons a as ih =>
    intro l2 h
    cases l2 with
    | nil => exact absurd h (by simp [charListLt])
    | cons b bs =>
      rw [charListLt_cons_iff] at h
      rw [Bool.eq_false_iff]
      intro hrev
      rw [charListLt_cons_iff] at hrev
      rcases h with hlt | ⟨heq, hrec⟩
      · rcases hrev with hlt' | ⟨heq', _⟩ <;> omega
      · rcases hrev with hlt' | ⟨heq', hrec'⟩
        · omega
        · have hfalse := ih bs hrec
          exact absurd hrec' (by simp [hfalse])

theorem charListLt_false_trans :
    ∀ l1 l2 l3, charListLt l1 l2 = false → charListLt l2 l3 = false →
      charListLt l1 l3 = false := by
  intro l1
  induction l1 with
  | nil =>
    intro l2 l3 h1 h2
    cases l2 with
    | nil => exact h2
    | cons b bs =>
      cases l3 with
      | nil => rfl
      | cons c cs => exact absurd h1 (by simp [charListLt])
  | cons a as ih =>
    intro l2 l3 h1 h2
    cases l3 with
    | nil => rfl
    | cons c cs =>
      cases l2 with
      | nil => exact absurd h2 (by simp [charListLt])
      | cons b bs =>
        simp only [charListLt] at h1 h2 ⊢
        rcases Bool.or_eq_false_iff.mp h1 with ⟨h1a, h1b⟩
        rcases Bool.or_eq_false_iff.mp h2 with ⟨h2a, h2b⟩
        have h1a' : ¬ a.toNat < b.toNat := by simpa using h1a
        have h2a' : ¬ b.toNat < c.toNat := by simpa using h2a
        rw [Bool.or_eq_false_iff]
        constructor
        · simp
          omega
        · by_cases heq : a.toNat = c.toNat
          · have hab : a.toNat = b.toNat := by omega
            have hbc : b.toNat = c.toNat := by omega
            have hasbs : charListLt as bs = false := by
              cases hv : charListLt as bs
              · rfl
              · rw [hv] at h1b
                simp at h1b
                exact absurd hab h1b
            have hbscs : charListLt bs cs = false := by
              cases hv : charListLt bs cs
              · rfl
              · rw [hv] at h2b
                simp at h2b
                exact absurd hbc h2b
            simp [ih bs cs hasbs hbscs]
          · simp [heq]

theorem strLeb_refl (a : String) : strLeb a a = true := by
  simp [strLeb, strLtb, charListLt_irrefl]

theorem strLeb_total (a b : String) : strLeb a b = true ∨ strLeb b a = true := by
  unfold strLeb strLtb
  cases h : charListLt b.toList a.toList
  · left; rfl
  · right
    rw [charListLt_asymm _ _ h]
    rfl

theorem strLeb_trans {a b c : String} (h1 : strLeb a b = true) (h2 : strLeb b c = true) :
    strLeb a c = true := by
  unfold strLeb strLtb at h1 h2 ⊢
  have h1' : charListLt b.toList a.toList = false := by simpa using h1
  have h2' : charListLt c.toList b.toList = false := by simpa using h2
  rw [charListLt_false_trans _ _ _ h2' h1']
  rfl

/-! ### maximum of the completion ledger (C9) -/

theorem maxStr?_eq_none_iff (l : List String) : maxStr? l = none ↔ l = [] := by
  cases l with
  | nil => simp [maxStr?]
  | cons c rest =>
    constructor
    · intro h
      unfold maxStr? at h
      rcases hr : maxStr? rest with _ | m' <;> rw [hr] at h <;> exact Option.noConfusion h
    · intro h
      exact absurd h (by simp)

theorem maxStr?_cons_none (c : String) (rest : List String) (h : maxStr? rest = none) :
    maxStr? (c :: rest) = some c := by
  unfold maxStr?
  rw [h]

theorem maxStr?_cons_some (c m' : String) (rest : List String) (h : maxStr? rest = some m') :
    maxStr? (c :: rest) = some (if strLeb c m' then m' else c) := by
  unfold maxStr?
  rw [h]

theorem maxStr?_mem : ∀ (l : List String) (m : String), maxStr? l = some m → m ∈ l := by
  intro l
  induction l with
  | nil =>
    intro m h
    exact Option.noConfusion h
  | cons c rest ih =>
    intro m h
    rcases hr : maxStr? rest with _ | m'
    · rw [maxStr?_cons_none c rest hr] at h
      injection h with h
      exact h ▸ List.mem_cons_self c rest
    · rw [maxStr?_cons_some c m' rest hr] at h
      by_cases hle : strLeb c m' = true
      · rw [if_pos hle] at h
        injection h with h
        exact h ▸ List.mem_cons_of_mem c (ih m' hr)
      · rw [if_neg hle] at h
        injection h with h
        exact h ▸ List.mem_cons_self c rest

theorem maxStr?_le : ∀ (l : List String) (m : String), maxStr? l = some m →
    ∀ c ∈ l, strLeb c m = true := by
  intro l
  induction l with
  | nil =>
    intro m h
    exact Option.noConfusion h
  | cons a rest ih =>
    intro m h c hc
    rcases hr : maxStr? rest with _ | m'
    · rw [maxStr?_cons_none a rest hr] at h
      injection h with h
      subst h
      have hrest : rest = [] := (maxStr?_eq_none_iff rest).mp hr
      subst hrest
      have : c = a := by simpa using hc
      subst this
      exact strLeb_refl c
    · rw [maxStr?_cons_some a m' rest hr] at h
      rcases List.mem_cons.mp hc with rfl | htail
      · by_cases hle : strLeb c m' = true
        · rw [if_pos hle] at h
          injection h with h
          subst h
          exact hle
        · rw [if_neg hle] at h
          injection h with h
          subst h
          exact strLeb_refl c
      · have hcm' := ih m' hr c htail
        by_cases hle : strLeb a m' = true
        · rw [if_pos hle] at h
          injection h with h
          subst h
          exact hcm'
        · rw [if_neg hle] at h
          injection h with h
          subst h
          rcases strLeb_total a m' with ht | ht
          · exact absurd ht hle
          · exact strLeb_trans hcm' ht

/-! ### C9: derived last-completed value -/

/-- C9 counterexample.  With no completion records at all, the derived
lastPm falls back to the stored `lastPm` column
(`latestCompletedAt ?? item.lastPm ?? null`) instead of the maximum over the
(empty) record set, so the derived value does not always equal that
maximum. -/
theorem derived_lastpm_counterexample :
    derivedLastPm [] ⟨1, 1, none, none, none, none, none, some "2024-01-01"⟩ ≠
      maxStr? (completedDatesFor [] 1) := by
  decide

/-- C9 amended.  Whenever the obligation has at least one completion record
with non-null completedAt, the derived lastPm equals the maximum completedAt
over all of its records (an attained upper bound, not the most recently
logged value); with no such records it falls back to the stored lastPm.
Logging a completion for a not-yet-logged due date never lowers the derived
maximum. -/
theorem derived_lastpm_is_max (ledger : List PmCompletionRec) (item : PmEntity) :
    (completedDatesFor ledger item.id ≠ [] →
       derivedLastPm ledger item = maxStr? (completedDatesFor ledger item.id)
     ∧ ∃ m, maxStr? (completedDatesFor ledger item.id) = some m
            ∧ m ∈ completedDatesFor ledger item.id
            ∧ ∀ c ∈ completedDatesFor ledger item.id, strLeb c m = true)
  ∧ (∀ (pm0 : PmEntity) (due c : String) (notes : Option String) (v : String),
       pm0.id = item.id →
       ledger.find? (pmKeyMatch pm0.id due) = none →
       getLatestCompletedPmDate ledger item.id = some v →
       ∃ w, getLatestCompletedPmDate (logPmCompletion ledger pm0 due c notes) item.id = some w
            ∧ strLeb v w = true) := by
  constructor
  · intro hne
    rcases hm : maxStr? (completedDatesFor ledger item.id) with _ | m
    · exact absurd ((maxStr?_eq_none_iff _).mp hm) hne
    · refine ⟨?_, m, rfl, maxStr?_mem _ m hm, maxStr?_le _ m hm⟩
      unfold derivedLastPm getLatestCompletedPmDate
      rw [hm]
  · intro pm0 due c notes v hid hfind hv
    have hlog : logPmCompletion ledger pm0 due c notes =
        ledger ++ [⟨pm0.id, pm0.locationId, pm0.assetId, due, some c, notes⟩] := by
      unfold logPmCompletion
      rw [hfind]
    rw [hlog]
    have happend :
        completedDatesFor
          (ledger ++ [⟨pm0.id, pm0.locationId, pm0.assetId, due, some c, notes⟩]) item.id =
        completedDatesFor ledger item.id ++ [c] := by
      unfold completedDatesFor
      rw [List.filterMap_append]
      congr 1
      simp [hid]
    unfold getLatestCompletedPmDate at hv ⊢
    rw [happend]
    rcases hm2 : maxStr? (completedDatesFor ledger item.id ++ [c]) with _ | w
    · have hnil := (maxStr?_eq_none_iff _).mp hm2
      exact absurd hnil (by simp)
    · refine ⟨w, rfl, ?_⟩
      have hvmem : v ∈ completedDatesFor ledger item.id := maxStr?_mem _ v hv
      exact maxStr?_le _ w hm2 v (by simp [hvmem])

/-- Witness for `derived_lastpm_is_max`: one completed record makes the
derived lastPm equal to the records' maximum. -/
theorem derived_lastpm_is_max_witness :
    derivedLastPm [⟨1, 1, none, "2025-05-01", some "2025-05-10", none⟩]
        ⟨1, 1, none, none, none, none, none, none⟩ =
      maxStr? (completedDatesFor [⟨1, 1, none, "2025-05-01", some "2025-05-10", none⟩] 1) :=
  ((derived_lastpm_is_max [⟨1, 1, none, "2025-05-01", some "2025-05-10", none⟩]
      ⟨1, 1, none, none, none, none, none, none⟩).1 (by decide)).1

end Qualgen
